import Mathlib

/-!
# Verification of the bluesky-poster selection/validation/state core

Shallow embedding of the repository's pure core, translated from the
TypeScript sources:

* `src/validate.ts`   — text normalization and content hashing
* `src/queue.ts`      — queue selection with recycling (`selectNext`)
* `src/state.ts`      — persisted bot state (`ensureToday`, `recordSuccess`)
* `src/generator.ts`  — LLM post generation with repair/fallback
* `src/index.ts`      — orchestrator gates (`isQuietHours`)
* `src/images.ts`     — `selectRandomImage`

Strings are modelled as `String` / `List Char`.  Platform primitives that
the code calls (Node `crypto`, WHATWG `URL`, `Intl.Segmenter`,
`JSON.parse`, `fetch`, `Math.random`) are modelled explicitly; each model
is documented at its definition site.
-/

namespace BskyPoster

/-- JS `\s` whitespace class, restricted to the common ASCII whitespace
characters (space, tab, LF, CR, VT, FF).  Unicode space characters are not
modelled. -/
def isWs (c : Char) : Bool :=
  c = ' ' || c = '\t' || c = '\n' || c = '\r' || c = '\x0b' || c = '\x0c'

def nonWs (c : Char) : Bool := !isWs c

/-- One pass of `text.replace(/\s+/g, ' ')`: every maximal run of
whitespace becomes a single space.  The boolean argument records whether
the previous character was whitespace (i.e. we are inside a run). -/
def collapseWsAux : Bool → List Char → List Char
  | _, [] => []
  | prev, c :: cs =>
    if isWs c then
      (if prev then collapseWsAux true cs else ' ' :: collapseWsAux true cs)
    else c :: collapseWsAux false cs

def collapseWs (l : List Char) : List Char := collapseWsAux false l

/-- `String.prototype.trim()`: strip whitespace from both ends. -/
def ltrimWs (l : List Char) : List Char := l.dropWhile isWs

def rtrimWs (l : List Char) : List Char := (l.reverse.dropWhile isWs).reverse

def trimWs (l : List Char) : List Char := rtrimWs (ltrimWs l)

/-- Modelled: `String.prototype.toLowerCase()`, restricted to the ASCII
letters (the Unicode case mappings are not modelled). -/
def jsToLower (c : Char) : Char :=
  match c with
  | 'A' => 'a' | 'B' => 'b' | 'C' => 'c' | 'D' => 'd' | 'E' => 'e'
  | 'F' => 'f' | 'G' => 'g' | 'H' => 'h' | 'I' => 'i' | 'J' => 'j'
  | 'K' => 'k' | 'L' => 'l' | 'M' => 'm' | 'N' => 'n' | 'O' => 'o'
  | 'P' => 'p' | 'Q' => 'q' | 'R' => 'r' | 'S' => 's' | 'T' => 't'
  | 'U' => 'u' | 'V' => 'v' | 'W' => 'w' | 'X' => 'x' | 'Y' => 'y'
  | 'Z' => 'z'
  | other => other

/-- The fixed set of tracking query parameters removed by
`stripTracking` (from `src/validate.ts`). -/
def trackingParams : List (List Char) :=
  ["utm_source".data, "utm_medium".data, "utm_campaign".data,
   "utm_term".data, "utm_content".data, "gclid".data, "fbclid".data]

/-- Split a character list on a separator character (used to model
`URLSearchParams` splitting on `&` and `String.prototype.split(':')`). -/
def splitCh (sep : Char) : List Char → List (List Char)
  | [] => [[]]
  | c :: cs =>
    if c = sep then [] :: splitCh sep cs
    else
      match splitCh sep cs with
      | [] => [[c]]
      | p :: ps => (c :: p) :: ps

/-- Join with a separator character; inverse of `splitCh`. -/
def joinCh (sep : Char) : List (List Char) → List Char
  | [] => []
  | [p] => p
  | p :: ps => p ++ sep :: joinCh sep ps

def httpPrefix : List Char := ['h', 't', 't', 'p', ':', '/', '/']

def httpsPrefix : List Char := ['h', 't', 't', 'p', 's', ':', '/', '/']

/-! ### WHATWG URL model (for `stripTracking`)

`stripTracking` runs its match through `new URL(match)`, deletes the
tracking keys it finds among `url.searchParams.keys()`, and returns
`url.toString()`; an unparsable match is returned unchanged by the
`catch` branch.  The model below follows the WHATWG URL Standard for
`http`/`https` URLs: input trimming, extra-slash skipping, reg-name host
canonicalisation, default-port elision, dot-segment resolution,
percent-encoding of path/query/fragment with the standard's
percent-encode sets (uppercase hex; existing `%xy` sequences pass
through verbatim because `%` is in no encode set), and the
`application/x-www-form-urlencoded` re-serialisation of the query that
`searchParams.delete` triggers.  Out of the model's scope (each makes
`urlCanon` return `none`, i.e. the match comes back unchanged, where the
real parser would canonicalise; no theorem below exercises them):
userinfo (`@` in the authority), IP literals (`[...]` hosts, IPv4
normalisation), and IDNA/punycode for hosts with non-ASCII or
percent-encoded non-ASCII labels.  Percent-encoded query bytes that are
invalid UTF-8 are kept as bytes rather than replaced by U+FFFD. -/

/-- Hexadecimal digit? (as in a `%xy` percent-encoded sequence). -/
def isHexDigit (c : Char) : Bool :=
  c.isDigit || ('a' ≤ c && c ≤ 'f') || ('A' ≤ c && c ≤ 'F')

/-- Numeric value of a hexadecimal digit. -/
def hexVal (c : Char) : Nat :=
  if c.isDigit then c.toNat - 48
  else if 'a' ≤ c && c ≤ 'f' then c.toNat - 87
  else c.toNat - 55

/-- Uppercase hexadecimal digit of `n < 16` (the URL serialiser emits
uppercase hex). -/
def hexUpper (n : Nat) : Char :=
  if n < 10 then Char.ofNat (48 + n) else Char.ofNat (55 + n)

/-- `%XY` percent-encoding of one byte, uppercase hex. -/
def pctEncodeByte (n : Nat) : List Char :=
  ['%', hexUpper (n / 16 % 16), hexUpper (n % 16)]

/-- UTF-8 bytes of a code point. -/
def utf8Bytes (n : Nat) : List Nat :=
  if n < 0x80 then [n]
  else if n < 0x800 then [0xc0 + n / 64, 0x80 + n % 64]
  else if n < 0x10000 then [0xe0 + n / 4096, 0x80 + n / 64 % 64, 0x80 + n % 64]
  else [0xf0 + n / 262144, 0x80 + n / 4096 % 64, 0x80 + n / 64 % 64, 0x80 + n % 64]

/-- UTF-8 percent-encode one code point (every byte), uppercase hex. -/
def pctEncodeChar (c : Char) : List Char := (utf8Bytes c.toNat).flatMap pctEncodeByte

/-- Percent-encode the characters selected by `inSet`, keeping the rest
verbatim.  `%` is in no percent-encode set, so existing `%xy` sequences
pass through unchanged: the serialiser neither re-encodes them nor
normalises their case. -/
def encodeWith (inSet : Char → Bool) (l : List Char) : List Char :=
  l.flatMap (fun c => if inSet c then pctEncodeChar c else [c])

/-- The fragment percent-encode set: C0 controls, space, `"`, `<`, `>`,
the backquote (0x60), and everything above 0x7e. -/
def fragmentSet (c : Char) : Bool :=
  c.toNat ≤ 0x20 || c.toNat > 0x7e || c.toNat = 0x22 || c.toNat = 0x3c ||
  c.toNat = 0x3e || c.toNat = 0x60

/-- The path percent-encode set: the fragment set plus `#`, `?`, `{`, `}`. -/
def pathSet (c : Char) : Bool :=
  fragmentSet c || c.toNat = 0x23 || c.toNat = 0x3f || c.toNat = 0x7b || c.toNat = 0x7d

/-- The special-scheme query percent-encode set: C0 controls, space, `"`,
`#`, the apostrophe (0x27), `<`, `>`, and everything above 0x7e. -/
def querySet (c : Char) : Bool :=
  c.toNat ≤ 0x20 || c.toNat > 0x7e || c.toNat = 0x22 || c.toNat = 0x23 ||
  c.toNat = 0x27 || c.toNat = 0x3c || c.toNat = 0x3e

/-- Percent-decode to bytes.  `+` decodes to space when `plusSpace` is
set (the `application/x-www-form-urlencoded` parser); a `%` not followed
by two hex digits stands for itself; other characters contribute their
UTF-8 bytes. -/
def pctDecode (plusSpace : Bool) : List Char → List Nat
  | [] => []
  | '%' :: a :: b :: rest =>
    if isHexDigit a && isHexDigit b then
      (16 * hexVal a + hexVal b) :: pctDecode plusSpace rest
    else 0x25 :: pctDecode plusSpace (a :: b :: rest)
  | '+' :: rest =>
    if plusSpace then 0x20 :: pctDecode plusSpace rest else 0x2b :: pctDecode plusSpace rest
  | c :: rest => utf8Bytes c.toNat ++ pctDecode plusSpace rest

/-- `application/x-www-form-urlencoded` parse of a query (what
`url.searchParams` holds): split on `&`, skip empty pieces, split each
piece at its first `=` (a piece with no `=` is a name with an empty
value), percent-decode name and value with `+` as space.  Names and
values are byte lists. -/
def formParse (q : List Char) : List (List Nat × List Nat) :=
  ((splitCh '&' q).filter (fun p => !p.isEmpty)).map (fun part =>
    (pctDecode true (part.takeWhile (fun c => c ≠ '=')),
     pctDecode true ((part.dropWhile (fun c => c ≠ '=')).tail)))

/-- One byte of the `application/x-www-form-urlencoded` serialiser:
space becomes `+`; ASCII alphanumerics and `*`, `-`, `.`, `_` stand for
themselves; every other byte is percent-encoded. -/
def formByte (n : Nat) : List Char :=
  if n = 0x20 then ['+']
  else if (0x30 ≤ n ∧ n ≤ 0x39) ∨ (0x41 ≤ n ∧ n ≤ 0x5a) ∨ (0x61 ≤ n ∧ n ≤ 0x7a)
      ∨ n = 0x2a ∨ n = 0x2d ∨ n = 0x2e ∨ n = 0x5f then [Char.ofNat n]
  else pctEncodeByte n

/-- Serialise the kept query pairs: `name=value` joined with `&` (the
serialiser always writes the `=`). -/
def formSerialize (ps : List (List Nat × List Nat)) : List Char :=
  joinCh '&' (ps.map (fun p => p.1.flatMap formByte ++ '=' :: p.2.flatMap formByte))

/-- The tracking-parameter names as byte lists: `searchParams.keys()`
yields decoded names, and the `Set` membership test compares those
decoded strings. -/
def trackingBytes : List (List Nat) :=
  trackingParams.map (fun w => w.map Char.toNat)

/-- ASCII-lowercase a byte (`domain to ASCII` case-normalises). -/
def lowerByte (n : Nat) : Nat := if 0x41 ≤ n ∧ n ≤ 0x5a then n + 0x20 else n

/-- Forbidden domain byte: C0 controls and space, `#`, `%`, `/`, `:`,
`<`, `>`, `?`, `@`, `[`, `\`, `]`, `^`, `|`, DEL.  Bytes at 0x80 and
above (IDNA territory) are also refused by this model, see the section
comment. -/
def forbiddenDomainByte (n : Nat) : Bool :=
  n ≤ 0x20 || n = 0x23 || n = 0x25 || n = 0x2f || n = 0x3a || n = 0x3c || n = 0x3e ||
  n = 0x3f || n = 0x40 || n = 0x5b || n = 0x5c || n = 0x5d || n = 0x5e || n = 0x7c ||
  n ≥ 0x7f

/-- Parse and canonicalise a reg-name host: percent-decode, refuse an
empty host, an IP literal or a forbidden byte, lowercase.  `none` means
the parse fails (`new URL` throws). -/
def parseHost (l : List Char) : Option (List Char) :=
  if l.isEmpty then none
  else if l.head? = some '[' then none
  else
    let bs := pctDecode false l
    if bs.any forbiddenDomainByte then none
    else some ((bs.map lowerByte).map Char.ofNat)

/-- Parse the port: digits only, at most 65535, with the scheme-default
port (and an empty port) elided from the serialisation.  `none` is a
parse failure, `some none` prints no port, `some (some p)` prints `:p`. -/
def parsePort (defaultPort : Nat) (l : List Char) : Option (Option Nat) :=
  if l.isEmpty then some none
  else if l.all Char.isDigit then
    let p := l.foldl (fun a c => a * 10 + (c.toNat - 48)) 0
    if p > 65535 then none
    else if p = defaultPort then some none
    else some (some p)
  else none

/-- For special schemes the path treats `\` like `/`. -/
def slashify (c : Char) : Char := if c = '\\' then '/' else c

/-- A single-dot path segment: `.` or `%2e`, case-insensitively. -/
def isDotSeg (s : List Char) : Bool :=
  s.map jsToLower = ['.'] || s.map jsToLower = ['%', '2', 'e']

/-- A double-dot path segment: any case-insensitive combination of `.`
and `%2e` twice. -/
def isDotDotSeg (s : List Char) : Bool :=
  s.map jsToLower = ['.', '.'] || s.map jsToLower = ['.', '%', '2', 'e'] ||
  s.map jsToLower = ['%', '2', 'e', '.'] ||
  s.map jsToLower = ['%', '2', 'e', '%', '2', 'e']

/-- Flush one path segment (WHATWG path state): a double-dot segment
pops the previous segment, a single-dot segment is dropped, and either,
when flushed by the end of the path rather than by a separator, appends
an empty segment (keeping the trailing slash).  `acc` holds the segments
built so far, most recent first. -/
def stepSeg (acc : List (List Char)) (s : List Char) (atEnd : Bool) : List (List Char) :=
  if isDotDotSeg s then (if atEnd then [] :: acc.tail else acc.tail)
  else if isDotSeg s then (if atEnd then [] :: acc else acc)
  else s :: acc

/-- Process the raw path segments; the last one is flushed `atEnd`. -/
def procSegs (acc : List (List Char)) : List (List Char) → List (List Char)
  | [] => acc.reverse
  | [s] => (stepSeg acc s true).reverse
  | s :: rest => procSegs (stepSeg acc s false) rest

/-- Serialise the path: a `/` before every segment, each segment
percent-encoded with the path set. -/
def serPath (segs : List (List Char)) : List Char :=
  segs.flatMap (fun s => '/' :: encodeWith pathSet s)

/-- End-of-authority characters. -/
def authEnd (c : Char) : Bool := c = '/' || c = '\\' || c = '?' || c = '#'

/-- Modelled: `new URL(m)` followed by `searchParams.delete(k)` for each
tracking key present and `url.toString()`, per the section comment
above.  The query is re-serialised through `application/x-www-form-urlencoded`
exactly when a tracking key is present (only then does the code call
`delete`, whose update steps rewrite the whole query); a query emptied of
all its pairs loses its `?`. -/
def urlCanon (m : List Char) : Option (List Char) :=
  let t1 := (m.dropWhile (fun c => c.toNat ≤ 0x20)).reverse
  let t2 := (t1.dropWhile (fun c => c.toNat ≤ 0x20)).reverse
  let m1 := t2.filter (fun c => !(c.toNat = 9 || c.toNat = 10 || c.toNat = 13))
  let scheme? : Option (List Char × Nat) :=
    if httpsPrefix.isPrefixOf m1 then some ("https".data, 443)
    else if httpPrefix.isPrefixOf m1 then some ("http".data, 80)
    else none
  match scheme? with
  | none => none
  | some (schemeName, defPort) =>
    let rest := (m1.drop (schemeName.length + 3)).dropWhile (fun c => c = '/' || c = '\\')
    let auth := rest.takeWhile (fun c => !authEnd c)
    let afterAuth := rest.dropWhile (fun c => !authEnd c)
    if auth.contains '@' then none
    else
      match parseHost (auth.takeWhile (fun c => c ≠ ':')),
            parsePort defPort ((auth.dropWhile (fun c => c ≠ ':')).tail) with
      | some host, some port? =>
        let preFrag := afterAuth.takeWhile (fun c => c ≠ '#')
        let pathRaw := preFrag.takeWhile (fun c => c ≠ '?')
        let segs0 : List (List Char) :=
          match pathRaw.map slashify with
          | [] => [[]]
          | _ :: ps => splitCh '/' ps
        let path := serPath (procSegs [] segs0)
        let query : List Char :=
          if preFrag.contains '?' then
            let stored := encodeWith querySet ((preFrag.dropWhile (fun c => c ≠ '?')).tail)
            let pairs := formParse stored
            if pairs.any (fun p => trackingBytes.contains p.1) then
              let kept := pairs.filter (fun p => !trackingBytes.contains p.1)
              if kept.isEmpty then [] else '?' :: formSerialize kept
            else '?' :: stored
          else []
        let frag : List Char :=
          if afterAuth.contains '#' then
            '#' :: encodeWith fragmentSet ((afterAuth.dropWhile (fun c => c ≠ '#')).tail)
          else []
        some (schemeName ++ ':' :: '/' :: '/' :: host ++
          (match port? with
           | none => []
           | some p => ':' :: Nat.toDigits 10 p) ++
          path ++ query ++ frag)
      | _, _ => none

/-- `stripTracking` from `src/validate.ts`: parse the match with
`new URL`, delete the tracking keys found among the parameter names,
re-serialise; an unparsable match is returned unchanged (the `catch`
branch). -/
def stripTracking (m : List Char) : List Char :=
  match urlCanon m with
  | some out => out
  | none => m

/-- Whether the regex `https?:\/\/[^\s]+` matches starting at the head of
`l`: a scheme prefix followed by at least one non-whitespace character
(the `s?` alternative with `s` is tried first, as the regex engine does). -/
def headMatch (l : List Char) : Bool :=
  (httpsPrefix.isPrefixOf l && (l[8]?.elim false nonWs))
  || (httpPrefix.isPrefixOf l && (l[7]?.elim false nonWs))

/-- `collapsed.replace(/https?:\/\/[^\s]+/g, (m) => stripTracking(m))`:
scan left to right; at the first position where the pattern matches,
replace the maximal non-whitespace run starting there (the greedy match)
by its tracking-stripped form and continue after it. -/
def replaceUrls : List Char → List Char
  | [] => []
  | c :: cs =>
    if headMatch (c :: cs) then
      stripTracking ((c :: cs).takeWhile nonWs) ++ replaceUrls (cs.dropWhile nonWs)
    else c :: replaceUrls cs
termination_by l => l.length
decreasing_by
  · exact Nat.lt_succ_of_le (List.dropWhile_suffix _).length_le
  · simp

/-- `normalizeText` from `src/validate.ts`: lowercase, collapse
whitespace runs, trim, then strip tracking parameters from every
embedded URL. -/
def normalizeText (t : String) : String :=
  String.mk (replaceUrls ((trimWs (collapseWs t.data)).map jsToLower))

/-- Modelled: Node `crypto.createHash('sha256').update(s).digest('hex')`.
The claims about `hashText` depend only on the digest being a
deterministic function of its input string, so SHA-256 itself is modelled
by a simple executable digest rendered in hexadecimal. -/
def sha256hex (s : String) : String :=
  String.mk (Nat.toDigits 16 (s.data.foldl (fun a c => (a * 131 + c.toNat) % (2 ^ 256)) 0))

/-- `hashText` from `src/validate.ts`: digest of the normalized text,
with a `sha256:` prefix. -/
def hashText (t : String) : String :=
  "sha256:" ++ sha256hex (normalizeText t)

/-! ### Helper notions for reasoning about `normalizeText`

`wordsOf` and `joinSp` are proof vocabulary (not part of the TypeScript
source): a whitespace-collapsed trimmed string is its non-empty
whitespace-free words joined by single spaces.  `replaceUrlsF` and
`wordsOfF` are fuel-indexed copies of the well-founded recursions,
structural in the fuel so that concrete inputs evaluate by `decide`. -/

/-- The maximal non-whitespace words of `l`, in order. -/
def wordsOf (l : List Char) : List (List Char) :=
  match l with
  | [] => []
  | c :: cs =>
    if isWs c then wordsOf cs
    else (c :: cs.takeWhile nonWs) :: wordsOf (cs.dropWhile nonWs)
termination_by l.length
decreasing_by
  · simp
  · have h2 : (cs.dropWhile nonWs).length ≤ cs.length := (List.dropWhile_suffix _).length_le
    simp
    omega

/-- Join words with single spaces. -/
def joinSp : List (List Char) → List Char
  | [] => []
  | [w] => w
  | w :: ws => w ++ ' ' :: joinSp ws

/-- Fuel-indexed copy of `replaceUrls` (structural in the fuel). -/
def replaceUrlsF : Nat → List Char → List Char
  | 0, l => l
  | _ + 1, [] => []
  | n + 1, c :: cs =>
    if headMatch (c :: cs) then
      stripTracking ((c :: cs).takeWhile nonWs) ++ replaceUrlsF n (cs.dropWhile nonWs)
    else c :: replaceUrlsF n cs

/-- Fuel-indexed copy of `wordsOf` (structural in the fuel). -/
def wordsOfF : Nat → List Char → List (List Char)
  | 0, _ => []
  | _ + 1, [] => []
  | n + 1, c :: cs =>
    if isWs c then wordsOfF n cs
    else (c :: cs.takeWhile nonWs) :: wordsOfF n (cs.dropWhile nonWs)

/-! ## Queue selection (`src/queue.ts`) -/

/-- One row of `content/queue.csv` (interface `QueueItem`). -/
structure QueueItem where
  id : String
  topic : String
  link : Option String
  tags : List String
  cta : Option String
  active : Bool
  imageIds : List String
deriving DecidableEq

/-- Interface `SelectionResult`. -/
structure SelectionResult where
  item : QueueItem
  isRecycled : Bool
deriving DecidableEq

/-- `selectNext` from `src/queue.ts`.  `postedIds` is the chronological
list of already-posted ids; the `Set` built by the code is modelled by
list membership.  The two `some ⟨a0, true⟩` arms translate the
non-null-asserted lookup (provably unreachable when the preceding
`find?` over `postedIds` succeeded) and the final
`return { item: activeItems[0], isRecycled: true }` fallback. -/
def selectNext (queue : List QueueItem) (postedIds : List String) : Option SelectionResult :=
  let activeItems := queue.filter (fun i => i.active)
  match activeItems with
  | [] => none
  | a0 :: _ =>
    match activeItems.find? (fun i => !(postedIds.contains i.id)) with
    | some fresh => some ⟨fresh, false⟩
    | none =>
      match postedIds.find? (fun pid => activeItems.any (fun i => i.id == pid)) with
      | some pid =>
        match activeItems.find? (fun i => i.id == pid) with
        | some recycled => some ⟨recycled, true⟩
        | none => some ⟨a0, true⟩
      | none => some ⟨a0, true⟩

/-! ## Bot state (`src/state.ts`) -/

/-- A UTC instant, with the fields `Date`'s UTC accessors expose.  The
code runs entirely through `toISOString`/`getUTCHours`/`getUTCMinutes`,
so an instant is modelled by its UTC calendar fields. -/
structure DateTime where
  year : Nat
  month : Nat
  day : Nat
  hour : Nat
  minute : Nat
  second : Nat
  ms : Nat
deriving DecidableEq

def pad2 (n : Nat) : List Char := [Nat.digitChar (n / 10), Nat.digitChar (n % 10)]

def pad3 (n : Nat) : List Char :=
  [Nat.digitChar (n / 100 % 10), Nat.digitChar (n / 10 % 10), Nat.digitChar (n % 10)]

def pad4 (n : Nat) : List Char :=
  [Nat.digitChar (n / 1000 % 10), Nat.digitChar (n / 100 % 10),
   Nat.digitChar (n / 10 % 10), Nat.digitChar (n % 10)]

/-- Modelled: `Date.prototype.toISOString()` (UTC, millisecond precision,
four-digit years). -/
def toISOString (d : DateTime) : String :=
  String.mk (pad4 d.year ++ '-' :: pad2 d.month ++ '-' :: pad2 d.day ++
    'T' :: pad2 d.hour ++ ':' :: pad2 d.minute ++ ':' :: pad2 d.second ++
    '.' :: pad3 d.ms ++ ['Z'])

/-- `now.toISOString().slice(0, 10)`: the UTC `YYYY-MM-DD` date string. -/
def utcDateString (d : DateTime) : String := String.mk ((toISOString d).data.take 10)

/-- Interface `BotState` (persisted JSON document). -/
structure BotState where
  posted_ids : List String
  recent_text_hashes : List String
  recent_image_ids : List String
  posted_today_utc : Option String
  posted_today_count : Nat
  last_posted_at : Option String
deriving DecidableEq

/-- Interface `ScheduleConfig` (from `config/schedule.json`). -/
structure ScheduleConfig where
  posts_per_day : Nat
  default_images_per_post : Nat
  max_images_per_post : Nat
  quiet_hours_utc : String × String
  random_jitter_minutes : Nat
  max_recent_image_ids : Nat
  max_recent_text_hashes : Nat
deriving DecidableEq

/-- The payload record passed to `recordSuccess`. -/
structure SuccessPayload where
  id : String
  textHash : String
  imageIds : List String
  when : DateTime
deriving DecidableEq

/-- `ensureToday` from `src/state.ts`: reset the daily counter when the
stored UTC date string differs from `now`'s. -/
def ensureToday (state : BotState) (now : DateTime) : BotState :=
  let today := utcDateString now
  if state.posted_today_utc ≠ some today then
    { state with posted_today_utc := some today, posted_today_count := 0 }
  else state

/-- JS `arr.slice(-n)` for `n : Nat`: the last `n` elements — except that
`slice(-0)` is `slice(0)`, the whole array. -/
def jsSliceLast (l : List α) (n : Nat) : List α :=
  if n = 0 then l else l.drop (l.length - n)

/-- `recordSuccess` from `src/state.ts`: append the posted id, text hash
and image ids, bump the daily counter, stamp `last_posted_at`, then trim
the two recency lists with `slice(-cap)` whenever they exceed their cap. -/
def recordSuccess (state : BotState) (schedule : ScheduleConfig) (payload : SuccessPayload) :
    BotState :=
  let updated : BotState :=
    { state with
      posted_ids := state.posted_ids ++ [payload.id]
      recent_text_hashes := state.recent_text_hashes ++ [payload.textHash]
      recent_image_ids := state.recent_image_ids ++ payload.imageIds
      posted_today_count := state.posted_today_count + 1
      last_posted_at := some (toISOString payload.when) }
  let updated :=
    if updated.recent_text_hashes.length > schedule.max_recent_text_hashes then
      { updated with
        recent_text_hashes := jsSliceLast updated.recent_text_hashes schedule.max_recent_text_hashes }
    else updated
  let updated :=
    if updated.recent_image_ids.length > schedule.max_recent_image_ids then
      { updated with
        recent_image_ids := jsSliceLast updated.recent_image_ids schedule.max_recent_image_ids }
    else updated
  updated

/-! ## Images (`src/images.ts`) -/

/-- Interface `ImageAsset`. -/
structure ImageAsset where
  id : String
  path : String
  defaultAlt : String
  width : Nat
  height : Nat
  bytes : Nat
  mime : String
deriving DecidableEq

/-- `selectRandomImage` from `src/images.ts`.  `Math.random()` is
modelled by the explicit argument `rnd` (a rational in `[0, 1)`);
`Math.floor(rnd * length)` indexes the list. -/
def selectRandomImage (images : List ImageAsset) (rnd : ℚ) : Option ImageAsset :=
  if images.length = 0 then none
  else images[(Int.floor (rnd * images.length)).toNat]?

/-! ## Generator (`src/generator.ts`)

The generator talks to the outside world through `fetch` and
`JSON.parse`.  Both are modelled as explicit arguments: `parseJson`
models `JSON.parse` wrapped in `safeParse` (`none` = the parse threw),
and `net k` models the outcome of the `k`-th `callNova` invocation —
`.error e` covers every way `callNova` throws (network failure, non-OK
HTTP status, a response body that is not JSON, a missing `text` field),
`.ok r` a successful call.  Prompt construction
(`buildGeneratePrompt`/`buildRepairPrompt`) only influences what is sent
over the network, which the oracle abstracts, so it is not modelled. -/

/-- A JSON value (what `JSON.parse` can return). -/
inductive JValue where
  | jnull : JValue
  | jbool : Bool → JValue
  | jnum : ℚ → JValue
  | jstr : String → JValue
  | jarr : List JValue → JValue
  | jobj : List (String × JValue) → JValue

/-- JS falsiness of a JSON value (`null`, `false`, `0`, `""`). -/
def jsFalsy : JValue → Bool
  | .jnull => true
  | .jbool b => !b
  | .jnum q => q == 0
  | .jstr s => s == ""
  | _ => false

/-- JS property access `v.k`: a field of an object, `undefined` otherwise. -/
def jgetField (v : JValue) (k : String) : Option JValue :=
  match v with
  | .jobj fs => fs.lookup k
  | _ => none

/-- Interface `NovaResponse`: a successfully decoded gateway response
(`text` was checked to be a string by `callNova`; the usage counters are
present iff they came back as numbers). -/
structure NovaResponse where
  text : String
  model : Option String
  total_tokens : Option Nat
  web_search : Option Nat
  file_search : Option Nat
  image_generation : Option Nat
  code_interpreter : Option Nat
deriving DecidableEq

/-- The `meta` block of a `GenerationResult`. -/
structure GenMeta where
  total_tokens : Option Nat
  file_search : Option Nat
  web_search : Option Nat
  image_generation : Option Nat
  code_interpreter : Option Nat
deriving DecidableEq

/-- Interface `GenerationResult`.  The TypeScript type of `source` is the
string-literal union `'nova' | 'fallback'`; it is modelled as `String` so
that statements about its value can be expressed. -/
structure GenerationResult where
  text : String
  alt_overrides : Option (List String)
  model : String
  source : String
  meta : Option GenMeta
deriving DecidableEq

/-- Interface `GenerationInput`. -/
structure GenerationInput where
  voice : String
  images : List ImageAsset
deriving DecidableEq

/-- The environment variables the generator reads: `NOVA_API_KEY` and
`NOVA_MODEL` (verbosity/token/reasoning settings only shape the request
body, which the network oracle abstracts). -/
structure GenEnv where
  apiKey : Option String
  novaModel : Option String
deriving DecidableEq

def MAX_GRAPHEMES : Nat := 300

/-- Modelled: `Intl.Segmenter('en', { granularity: 'grapheme' })`
segmentation, simplified to one segment per character (multi-codepoint
grapheme clustering is not modelled; the claims proved here use only
segmentation-generic facts). -/
def graphemes (s : String) : List String := s.data.map (fun c => String.mk [c])

/-- `countGraphemes` from `src/validate.ts`. -/
def countGraphemes (s : String) : Nat := (graphemes s).length

/-- `String.prototype.trim()` on a `String`. -/
def jsTrim (s : String) : String := String.mk (trimWs s.data)

/-- The result shape of `validateAltOverrides`. -/
structure AltCheck where
  ok : Bool
  message : Option String
deriving DecidableEq

/-- `validateAltOverrides` from `src/validate.ts`, at its runtime
behaviour on untyped JSON input: absent or falsy overrides pass; present
overrides must be an array of exactly `count` strings that are non-empty
after trimming. -/
def validateAltOverrides (count : Nat) (overrides : Option JValue) : AltCheck :=
  match overrides with
  | none => ⟨true, none⟩
  | some v =>
    if jsFalsy v then ⟨true, none⟩
    else
      match v with
      | .jarr xs =>
        if xs.length ≠ count then
          ⟨false, some ("alt_overrides must have " ++ toString count ++ " entries")⟩
        else if xs.any (fun x => match x with | .jstr s => jsTrim s == "" | _ => true) then
          ⟨false, some "alt_overrides entries must be non-empty strings"⟩
        else ⟨true, none⟩
      | _ => ⟨false, some "alt_overrides must be an array"⟩

/-- `typeof v === 'object'` for a JSON value (arrays and `null` are
`'object'` in JS; the `null` case is unreachable after the falsiness
check). -/
def jsTypeofObject : JValue → Bool
  | .jobj _ => true
  | .jarr _ => true
  | .jnull => true
  | _ => false

/-- The validated `alt_overrides` as the typed field of the result:
a validated array is decoded to its strings, anything else (absent or
falsy) behaves as absent downstream. -/
def decodeAlt (altv : Option JValue) : Option (List String) :=
  match altv with
  | some (.jarr xs) => some (xs.filterMap (fun x => match x with | .jstr s => some s | _ => none))
  | _ => none

/-- `validateOutput` from `src/generator.ts`: the payload must be a
truthy object with a string `text`, valid `alt_overrides`, and a
grapheme count of at most `MAX_GRAPHEMES`. -/
def validateOutput (obj : Option JValue) (imageCount : Nat) : Except String GenerationResult :=
  match obj with
  | none => .error "JSON missing or not an object"
  | some v =>
    if jsFalsy v then .error "JSON missing or not an object"
    else if !jsTypeofObject v then .error "JSON missing or not an object"
    else
      match jgetField v "text" with
      | some (.jstr text) =>
        let altv := jgetField v "alt_overrides"
        let ac := validateAltOverrides imageCount altv
        if !ac.ok then .error (ac.message.getD "")
        else if countGraphemes text > MAX_GRAPHEMES then
          .error ("text too long (" ++ toString (countGraphemes text) ++ " > " ++
            toString MAX_GRAPHEMES ++ ")")
        else .ok { text := text, alt_overrides := decodeAlt altv, model := "", source := "nova",
                   meta := none }
      | _ => .error "text missing"

/-- `trimToMaxGraphemes` from `src/generator.ts`. -/
def trimToMaxGraphemes (text : String) (maxN : Nat) : String :=
  let segs := graphemes text
  if segs.length ≤ maxN then text else String.join (segs.take maxN)

/-- JS `a || b` on an optional string (`undefined` and `""` are falsy). -/
def jsOrString (o : Option String) (d : String) : String :=
  match o with
  | some s => if s == "" then d else s
  | none => d

/-- `process.env.NOVA_MODEL || 'gpt-5-mini'`. -/
def defaultModel (env : GenEnv) : String := jsOrString env.novaModel "gpt-5-mini"

/-- `fallbackText` from `src/generator.ts` (the `reason` argument is
logged-adjacent only and does not influence the result, as in the
source). -/
def fallbackText (input : GenerationInput) (reason : String) : GenerationResult :=
  let base :=
    match input.images.head? with
    | some img =>
      if img.defaultAlt == "" then "Quick note from the docs."
      else "Quick note: " ++ img.defaultAlt
    | none => "Quick note from the docs."
  { text := trimToMaxGraphemes base MAX_GRAPHEMES, alt_overrides := none,
    model := "fallback", source := "fallback", meta := none }

/-- `extractMeta` from `src/generator.ts`. -/
def extractMeta (r : NovaResponse) : GenMeta :=
  ⟨r.total_tokens, r.file_search, r.web_search, r.image_generation, r.code_interpreter⟩

/-- `const initial = parsed || null`: a falsy parse result is collapsed
to `null`. -/
def collapseFalsy (parsed : Option JValue) : Option JValue :=
  match parsed with
  | some v => if jsFalsy v then none else some v
  | none => none

/-- `generatePost` from `src/generator.ts`.  The first `callNova` result
is `net 0`, the repair call's is `net 1`.  `const initial = parsed || null`
collapses a falsy parse to `null`; the repaired parse is used as-is. -/
def generatePost (parseJson : String → Option JValue) (env : GenEnv)
    (input : GenerationInput) (net : Nat → Except String NovaResponse) : GenerationResult :=
  match env.apiKey with
  | none => fallbackText input "NOVA_API_KEY missing"
  | some _ =>
    match net 0 with
    | .error e => fallbackText input e
    | .ok first =>
      let initial := collapseFalsy (parseJson first.text)
      match validateOutput initial input.images.length with
      | .ok out =>
        { out with model := jsOrString first.model (defaultModel env), source := "nova",
                   meta := some (extractMeta first) }
      | .error _msg =>
        match net 1 with
        | .error e => fallbackText input e
        | .ok repair =>
          let repaired := parseJson repair.text
          match validateOutput repaired input.images.length with
          | .ok out =>
            { out with model := jsOrString repair.model (defaultModel env), source := "nova",
                       meta := some (extractMeta repair) }
          | .error msg2 => fallbackText input (jsOrString (some msg2) "repair failed")

/-! ## Orchestrator gates (`src/index.ts`) -/

/-- Modelled: `Number(s)` for the digit strings occurring in `HH:MM`
boundaries (`Number('') = 0`; `NaN` for non-digit input is not modelled
and mapped to 0). -/
def jsNumberNat (l : List Char) : Nat :=
  if l.all Char.isDigit then l.foldl (fun a c => a * 10 + (c.toNat - '0'.toNat)) 0 else 0

/-- The `HH:MM → minutes since midnight` parsing performed inline by
`isQuietHours` (`split(':').map(Number)` then `h * 60 + m`). -/
def hmToMinutes (s : String) : Nat :=
  let parts := splitCh ':' s.data
  jsNumberNat (parts.headD []) * 60 + jsNumberNat ((parts.drop 1).headD [])

/-- `getUTCHours() * 60 + getUTCMinutes()`. -/
def minutesOfDay (d : DateTime) : Nat := d.hour * 60 + d.minute

/-- `isQuietHours` from `src/index.ts`. -/
def isQuietHours (range : String × String) (now : DateTime) : Bool :=
  let start := hmToMinutes range.1
  let stop := hmToMinutes range.2
  let minutes := minutesOfDay now
  if start < stop then decide (start ≤ minutes) && decide (minutes < stop)
  else decide (start ≤ minutes) || decide (minutes < stop)

/-- A well-formed `HH:MM` boundary string. -/
def fmtHM (h m : Nat) : String := String.mk (pad2 h ++ ':' :: pad2 m)

/-- The outcome of the early gates of `main` in `src/index.ts`. -/
inductive GateOutcome where
  | quietHours : GateOutcome
  | quotaReached : GateOutcome
  | proceed : GateOutcome
deriving DecidableEq

/-- The first gates of `main`: roll the stored date with `ensureToday`,
then exit on quiet hours, then exit on a reached daily quota. -/
def earlyGate (schedule : ScheduleConfig) (state : BotState) (now : DateTime) : GateOutcome :=
  let st := ensureToday state now
  if isQuietHours schedule.quiet_hours_utc now then .quietHours
  else if st.posted_today_count ≥ schedule.posts_per_day then .quotaReached
  else .proceed

/-! # Theorems -/

/-! ## C10 — `selectRandomImage` -/

/-- C10.  `selectRandomImage` is total and returns `none` exactly when
the input list is empty; for every non-empty list and every random draw
in `[0, 1)` the computed index is in bounds and the result is an element
of the list. -/
theorem selectRandomImage_spec (images : List ImageAsset) (rnd : ℚ)
    (h0 : 0 ≤ rnd) (h1 : rnd < 1) :
    (images = [] → selectRandomImage images rnd = none) ∧
    (images ≠ [] → ∃ a, selectRandomImage images rnd = some a ∧ a ∈ images) := by
  constructor
  · intro h
    subst h
    rfl
  · intro hne
    have hlen : 0 < images.length := List.length_pos.mpr hne
    have hflnn : 0 ≤ Int.floor (rnd * images.length) := by
      apply Int.floor_nonneg.mpr
      positivity
    have hfl : Int.floor (rnd * images.length) < (images.length : ℤ) := by
      apply Int.floor_lt.mpr
      push_cast
      calc rnd * images.length < 1 * images.length := by
            apply mul_lt_mul_of_pos_right h1
            exact_mod_cast hlen
        _ = images.length := one_mul _
    have hidx : (Int.floor (rnd * images.length)).toNat < images.length := by omega
    refine ⟨images[(Int.floor (rnd * images.length)).toNat], ?_, List.getElem_mem hidx⟩
    unfold selectRandomImage
    rw [if_neg (by omega), List.getElem?_eq_getElem hidx]

/-- Witness for C10: a concrete draw from a two-element catalog. -/
theorem selectRandomImage_spec_witness :
    ∃ a, selectRandomImage
        [⟨"a", "p", "alt", 10, 10, 5, "image/png"⟩, ⟨"b", "q", "alt", 10, 10, 5, "image/png"⟩]
        (3 / 4) = some a ∧
      a ∈ [⟨"a", "p", "alt", 10, 10, 5, "image/png"⟩, ⟨"b", "q", "alt", 10, 10, 5, "image/png"⟩] :=
  (selectRandomImage_spec _ _ (by norm_num) (by norm_num)).2 (by decide)

/-! ## C7 — `ensureToday` -/

/-- C7.  `ensureToday` returns the state unchanged when the stored UTC
date string equals `now`'s; otherwise it resets `posted_today_count` to 0
and stores `now`'s UTC date; all other fields are always unchanged.  The
function is pure (a function of its two arguments alone). -/
theorem ensureToday_spec (s : BotState) (now : DateTime) :
    (s.posted_today_utc = some (utcDateString now) → ensureToday s now = s) ∧
    (s.posted_today_utc ≠ some (utcDateString now) →
      (ensureToday s now).posted_today_count = 0 ∧
      (ensureToday s now).posted_today_utc = some (utcDateString now)) ∧
    (ensureToday s now).posted_ids = s.posted_ids ∧
    (ensureToday s now).recent_text_hashes = s.recent_text_hashes ∧
    (ensureToday s now).recent_image_ids = s.recent_image_ids ∧
    (ensureToday s now).last_posted_at = s.last_posted_at := by
  unfold ensureToday
  by_cases h : s.posted_today_utc = some (utcDateString now) <;> simp [h]

/-- Witness for C7: a stored date of 2025-12-15 rolls over on
2025-12-16T10:00Z. -/
theorem ensureToday_spec_witness :
    (ensureToday ⟨["001"], [], [], some "2025-12-15", 3, none⟩
        ⟨2025, 12, 16, 10, 0, 0, 0⟩).posted_today_count = 0 ∧
    (ensureToday ⟨["001"], [], [], some "2025-12-15", 3, none⟩
        ⟨2025, 12, 16, 10, 0, 0, 0⟩).posted_today_utc =
      some (utcDateString ⟨2025, 12, 16, 10, 0, 0, 0⟩) :=
  (ensureToday_spec _ _).2.1 (by decide)

/-! ## C9 — quiet hours with equal boundaries -/

/-- C9.  When the two quiet-hours boundaries parse to the same minute of
day, `isQuietHours` is `true` at every instant, and the orchestrator's
early gate therefore always exits with `quietHours` before any posting
step. -/
theorem isQuietHours_equal_bounds (a b : String) (now : DateTime)
    (h : hmToMinutes a = hmToMinutes b) :
    isQuietHours (a, b) now = true ∧
    (∀ (sched : ScheduleConfig) (st : BotState), sched.quiet_hours_utc = (a, b) →
      earlyGate sched st now = GateOutcome.quietHours) := by
  have h1 : isQuietHours (a, b) now = true := by
    unfold isQuietHours
    rw [h]
    rw [if_neg (lt_irrefl _)]
    rcases le_or_lt (hmToMinutes b) (minutesOfDay now) with hc | hc <;> simp [hc]
  refine ⟨h1, ?_⟩
  intro sched st hq
  unfold earlyGate
  rw [hq, h1]
  simp

/-- Witness for C9: the degenerate window `00:00`–`00:00` is always
quiet. -/
theorem isQuietHours_equal_bounds_witness :
    isQuietHours ("00:00", "00:00") ⟨2025, 6, 1, 12, 30, 0, 0⟩ = true :=
  (isQuietHours_equal_bounds _ _ _ (by decide)).1

/-! ## C8 — `isQuietHours` -/

theorem digitChar_isDigit {d : Nat} (h : d < 10) : (Nat.digitChar d).isDigit = true := by
  interval_cases d <;> decide

theorem digitChar_val {d : Nat} (h : d < 10) : (Nat.digitChar d).toNat - '0'.toNat = d := by
  interval_cases d <;> decide

theorem digitChar_ne_colon {d : Nat} (h : d < 10) : Nat.digitChar d ≠ ':' := by
  interval_cases d <;> decide

theorem jsNumberNat_pad2 {n : Nat} (h : n < 100) : jsNumberNat (pad2 n) = n := by
  have h1 : n / 10 < 10 := by omega
  have h2 : n % 10 < 10 := by omega
  unfold jsNumberNat pad2
  rw [if_pos]
  · simp only [List.foldl]
    rw [digitChar_val h1, digitChar_val h2]
    omega
  · simp [digitChar_isDigit h1, digitChar_isDigit h2]

theorem splitCh_append {sep : Char} {a : List Char} (b : List Char)
    (h : ∀ c ∈ a, c ≠ sep) : splitCh sep (a ++ sep :: b) = a :: splitCh sep b := by
  induction a with
  | nil => simp [splitCh]
  | cons c a ih =>
    have hc : c ≠ sep := h c (List.mem_cons_self c a)
    have ha : ∀ x ∈ a, x ≠ sep := fun x hx => h x (List.mem_cons_of_mem c hx)
    simp only [List.cons_append, splitCh, if_neg hc, List.append_eq, ih ha]

theorem splitCh_of_no_sep {sep : Char} {a : List Char}
    (h : ∀ c ∈ a, c ≠ sep) : splitCh sep a = [a] := by
  induction a with
  | nil => rfl
  | cons c a ih =>
    have hc : c ≠ sep := h c (List.mem_cons_self c a)
    have ha : ∀ x ∈ a, x ≠ sep := fun x hx => h x (List.mem_cons_of_mem c hx)
    simp only [splitCh, if_neg hc, ih ha]

theorem pad2_no_colon {n : Nat} (h : n < 100) : ∀ c ∈ pad2 n, c ≠ ':' := by
  have h1 : n / 10 < 10 := by omega
  have h2 : n % 10 < 10 := by omega
  intro c hc
  simp only [pad2, List.mem_cons, List.mem_singleton, List.not_mem_nil, or_false] at hc
  rcases hc with rfl | rfl
  · exact digitChar_ne_colon h1
  · exact digitChar_ne_colon h2

theorem hmToMinutes_fmtHM {h m : Nat} (hh : h < 100) (hm' : m < 100) :
    hmToMinutes (fmtHM h m) = h * 60 + m := by
  unfold hmToMinutes fmtHM
  have hdata : (String.mk (pad2 h ++ ':' :: pad2 m)).data = pad2 h ++ ':' :: pad2 m := rfl
  rw [hdata, splitCh_append (pad2 m) (pad2_no_colon hh), splitCh_of_no_sep (pad2_no_colon hm')]
  simp only [List.headD_cons, List.drop_succ_cons, List.drop_zero]
  rw [jsNumberNat_pad2 hh, jsNumberNat_pad2 hm']

/-- C8.  For well-formed `HH:MM` boundaries, `isQuietHours` is `true`
exactly when the current minute of the UTC day lies in `[start, stop)`
when `start < stop`, and otherwise (a window wrapping midnight) exactly
when the minute is `≥ start` or `< stop`. -/
theorem isQuietHours_spec (sh sm eh em : Nat) (now : DateTime)
    (h1 : sh < 24) (h2 : sm < 60) (h3 : eh < 24) (h4 : em < 60) :
    isQuietHours (fmtHM sh sm, fmtHM eh em) now =
      if sh * 60 + sm < eh * 60 + em then
        decide (sh * 60 + sm ≤ minutesOfDay now ∧ minutesOfDay now < eh * 60 + em)
      else
        decide (sh * 60 + sm ≤ minutesOfDay now ∨ minutesOfDay now < eh * 60 + em) := by
  unfold isQuietHours
  simp only [hmToMinutes_fmtHM (by omega : sh < 100) (by omega : sm < 100),
    hmToMinutes_fmtHM (by omega : eh < 100) (by omega : em < 100)]
  by_cases hlt : sh * 60 + sm < eh * 60 + em <;> simp [hlt]

/-- Witness for C8: 23:30 UTC lies inside the midnight-wrapping window
23:00–07:00. -/
theorem isQuietHours_spec_witness :
    isQuietHours (fmtHM 23 0, fmtHM 7 0) ⟨2025, 6, 1, 23, 30, 0, 0⟩ = true := by
  rw [isQuietHours_spec 23 0 7 0 _ (by decide) (by decide) (by decide) (by decide)]
  decide

/-! ## C3 — `recordSuccess` trimming (corrected)

The claim quantifies over *every* schedule configuration, but the code
trims with `slice(-cap)`, and in JS `slice(-0)` is `slice(0)` — the whole
array — so a cap of 0 is never enforced.  Moreover, when more new image
ids are appended than the cap allows, the trim (correctly, FIFO) discards
the excess *new* entries as well, so "the newly appended entries are
preserved" fails for a cap of 1 and two appended ids.  Both failures are
exhibited below; the amended claim restricts to positive caps and states
preservation as "the kept entries are exactly the newest `cap`". -/

/-- Counterexample for C3 as stated: with `max_recent_text_hashes = 0`
the appended hash survives (`slice(-0)` keeps everything), so the cap is
exceeded; and with `max_recent_image_ids = 1` and two freshly appended
image ids, the older of the two new ids (`"i1"`) is discarded, so the
newly appended entries are not all preserved. -/
theorem recordSuccess_claim_counterexample :
    ¬ ((recordSuccess ⟨[], [], [], none, 0, none⟩
          ⟨3, 1, 4, ("23:00", "07:00"), 12, 40, 0⟩
          ⟨"001", "h1", [], ⟨2025, 1, 1, 0, 0, 0, 0⟩⟩).recent_text_hashes.length ≤ 0) ∧
    "i1" ∉ (recordSuccess ⟨[], [], [], none, 0, none⟩
          ⟨3, 1, 4, ("23:00", "07:00"), 12, 1, 80⟩
          ⟨"001", "h1", ["i1", "i2"], ⟨2025, 1, 1, 0, 0, 0, 0⟩⟩).recent_image_ids := by
  decide

/-- C3 (amended).  For positive caps, `recordSuccess` keeps exactly the
newest `cap` entries of each recency list (equivalently: it drops the
excess from the front, oldest first), so the lists never exceed their
caps; new entries are preserved whenever they fit within the cap. -/
theorem recordSuccess_trim_spec (s : BotState) (sched : ScheduleConfig) (p : SuccessPayload)
    (ht : 1 ≤ sched.max_recent_text_hashes) (hi : 1 ≤ sched.max_recent_image_ids) :
    (recordSuccess s sched p).recent_text_hashes =
      (s.recent_text_hashes ++ [p.textHash]).drop
        ((s.recent_text_hashes.length + 1) - sched.max_recent_text_hashes) ∧
    (recordSuccess s sched p).recent_image_ids =
      (s.recent_image_ids ++ p.imageIds).drop
        ((s.recent_image_ids.length + p.imageIds.length) - sched.max_recent_image_ids) ∧
    (recordSuccess s sched p).recent_text_hashes.length ≤ sched.max_recent_text_hashes ∧
    (recordSuccess s sched p).recent_image_ids.length ≤ sched.max_recent_image_ids ∧
    (recordSuccess s sched p).posted_ids = s.posted_ids ++ [p.id] ∧
    (recordSuccess s sched p).posted_today_count = s.posted_today_count + 1 := by
  have hms : ∀ (l : List String) (n : Nat), 1 ≤ n → jsSliceLast l n = l.drop (l.length - n) := by
    intro l n hn
    unfold jsSliceLast
    rw [if_neg (by omega)]
  simp only [recordSuccess]
  rw [hms _ _ ht, hms _ _ hi]
  simp only [List.length_append, List.length_cons, List.length_nil, Nat.zero_add]
  by_cases c1 : s.recent_text_hashes.length + 1 > sched.max_recent_text_hashes <;>
    by_cases c2 :
      s.recent_image_ids.length + p.imageIds.length > sched.max_recent_image_ids <;>
    simp only [c1, c2, if_true, if_false, ite_true, ite_false, List.length_append,
      List.length_cons, List.length_nil, Nat.zero_add, List.length_drop] <;>
    refine ⟨?_, ?_, ?_, ?_, ?_, ?_⟩ <;>
    first
      | trivial
      | omega
      | (rw [Nat.sub_eq_zero_of_le (by omega), List.drop_zero])

/-- Witness for C3 (amended): caps of 2; one old hash plus the new one
fit exactly, while the three image ids are trimmed to the newest two. -/
theorem recordSuccess_trim_spec_witness :
    (recordSuccess ⟨["001"], ["h0"], ["i0"], none, 0, none⟩
        ⟨3, 1, 4, ("23:00", "07:00"), 12, 2, 2⟩
        ⟨"002", "h1", ["i1", "i2"], ⟨2025, 1, 1, 0, 0, 0, 0⟩⟩).recent_text_hashes =
      (["h0"] ++ ["h1"]).drop ((1 + 1) - 2) ∧
    (recordSuccess ⟨["001"], ["h0"], ["i0"], none, 0, none⟩
        ⟨3, 1, 4, ("23:00", "07:00"), 12, 2, 2⟩
        ⟨"002", "h1", ["i1", "i2"], ⟨2025, 1, 1, 0, 0, 0, 0⟩⟩).recent_image_ids =
      (["i0"] ++ ["i1", "i2"]).drop ((1 + 2) - 2) :=
  ⟨(recordSuccess_trim_spec _ _ _ (by decide) (by decide)).1,
   (recordSuccess_trim_spec _ _ _ (by decide) (by decide)).2.1⟩

/-! ## C2 — `selectNext` -/

/-- C2.  `selectNext` returns `none` exactly when no active item exists.
When some active item's id is absent from the posted-ids list, it returns
the first such item in queue order (the successful `find?` over the
active items), marked fresh.  When every active item has been posted, it
returns — marked recycled — the first active item whose id is the
earliest entry of the posted-ids list matching any active id; if no
posted id matches an active id it falls back to the first active item.
Every returned item is an active item of the queue. -/
theorem selectNext_eq_nil {queue : List QueueItem} (posted : List String)
    (h : queue.filter (fun i => i.active) = []) : selectNext queue posted = none := by
  unfold selectNext
  rw [h]

theorem selectNext_eq_cons {queue : List QueueItem} {a0 : QueueItem} {tl : List QueueItem}
    (posted : List String) (h : queue.filter (fun i => i.active) = a0 :: tl) :
    selectNext queue posted =
      match (a0 :: tl).find? (fun i => !(posted.contains i.id)) with
      | some fresh => some ⟨fresh, false⟩
      | none =>
        match posted.find? (fun pid => (a0 :: tl).any (fun i => i.id == pid)) with
        | some pid =>
          match (a0 :: tl).find? (fun i => i.id == pid) with
          | some recycled => some ⟨recycled, true⟩
          | none => some ⟨a0, true⟩
        | none => some ⟨a0, true⟩ := by
  unfold selectNext
  rw [h]

theorem selectNext_spec (queue : List QueueItem) (posted : List String) :
    (selectNext queue posted = none ↔ queue.filter (fun i => i.active) = []) ∧
    (∀ r, selectNext queue posted = some r → r.item ∈ queue.filter (fun i => i.active)) ∧
    (∀ i, (queue.filter (fun i => i.active)).find? (fun i => !(posted.contains i.id)) = some i →
      selectNext queue posted = some ⟨i, false⟩) ∧
    (∀ a rest, queue.filter (fun i => i.active) = a :: rest →
      (queue.filter (fun i => i.active)).find? (fun i => !(posted.contains i.id)) = none →
      ((∀ pid j,
          posted.find?
            (fun pid => (queue.filter (fun i => i.active)).any (fun i => i.id == pid)) =
              some pid →
          (queue.filter (fun i => i.active)).find? (fun i => i.id == pid) = some j →
          selectNext queue posted = some ⟨j, true⟩) ∧
       (posted.find?
            (fun pid => (queue.filter (fun i => i.active)).any (fun i => i.id == pid)) =
              none →
          selectNext queue posted = some ⟨a, true⟩))) := by
  refine ⟨?_, ?_, ?_, ?_⟩
  · cases hA : queue.filter (fun i => i.active) with
    | nil => simp [selectNext_eq_nil posted hA, hA]
    | cons a0 tl =>
      rw [selectNext_eq_cons posted hA]
      cases hF : (a0 :: tl).find? (fun i => !(posted.contains i.id)) with
      | some fresh => simp
      | none =>
        simp only [hF]
        cases hP : posted.find? (fun pid => (a0 :: tl).any (fun i => i.id == pid)) with
        | some pid =>
          simp only [hP]
          cases hR : (a0 :: tl).find? (fun i => i.id == pid) with
          | some r => simp
          | none => simp
        | none => simp
  · intro r hr
    cases hA : queue.filter (fun i => i.active) with
    | nil => rw [selectNext_eq_nil posted hA] at hr; exact absurd hr (by simp)
    | cons a0 tl =>
      rw [selectNext_eq_cons posted hA] at hr
      cases hF : (a0 :: tl).find? (fun i => !(posted.contains i.id)) with
      | some fresh =>
        simp only [hF, Option.some.injEq] at hr
        subst hr
        exact List.mem_of_find?_eq_some hF
      | none =>
        simp only [hF] at hr
        cases hP : posted.find? (fun pid => (a0 :: tl).any (fun i => i.id == pid)) with
        | some pid =>
          simp only [hP] at hr
          cases hR : (a0 :: tl).find? (fun i => i.id == pid) with
          | some rc =>
            simp only [hR, Option.some.injEq] at hr
            subst hr
            exact List.mem_of_find?_eq_some hR
          | none =>
            simp only [hR, Option.some.injEq] at hr
            subst hr
            exact List.mem_cons_self a0 tl
        | none =>
          simp only [hP, Option.some.injEq] at hr
          subst hr
          exact List.mem_cons_self a0 tl
  · intro i hi
    cases hA : queue.filter (fun i => i.active) with
    | nil => rw [hA] at hi; simp at hi
    | cons a0 tl =>
      rw [hA] at hi
      rw [selectNext_eq_cons posted hA]
      simp only [hi]
  · intro a rest hA hF
    rw [hA] at hF
    refine ⟨?_, ?_⟩
    · intro pid j hP hR
      rw [hA] at hP hR
      rw [selectNext_eq_cons posted hA]
      simp only [hF, hP, hR]
    · intro hP
      rw [hA] at hP
      rw [selectNext_eq_cons posted hA]
      simp only [hF, hP]

/-- Witness for C2: the spec's own test vector — ids 001/002/003 all
active, `["001"]` posted — selects 002 as fresh. -/
theorem selectNext_spec_witness :
    selectNext
      [⟨"001", "t1", none, [], none, true, []⟩,
       ⟨"002", "t2", none, [], none, true, []⟩,
       ⟨"003", "t3", none, [], none, true, []⟩] ["001"] =
      some ⟨⟨"002", "t2", none, [], none, true, []⟩, false⟩ :=
  (selectNext_spec _ _).2.2.1 _ (by decide)

/-! ## C4, C5, C6 — the generator -/

theorem countGraphemes_mk (l : List Char) : countGraphemes (String.mk l) = l.length := by
  simp [countGraphemes, graphemes]

theorem mk_append (a b : List Char) : String.mk a ++ String.mk b = String.mk (a ++ b) := rfl

theorem join_singletons (l : List Char) :
    String.join (l.map (fun c => String.mk [c])) = String.mk l := by
  have key : ∀ (l acc : List Char),
      List.foldl (· ++ ·) (String.mk acc) (l.map (fun c => String.mk [c])) =
        String.mk (acc ++ l) := by
    intro l
    induction l with
    | nil => intro acc; simp
    | cons c cs ih =>
      intro acc
      simp only [List.map_cons, List.foldl_cons, mk_append]
      rw [ih (acc ++ [c])]
      simp
  have h0 : String.join (l.map (fun c => String.mk [c])) =
      List.foldl (· ++ ·) (String.mk []) (l.map (fun c => String.mk [c])) := rfl
  rw [h0, key l []]
  rfl

theorem countGraphemes_trimToMaxGraphemes (s : String) (n : Nat) :
    countGraphemes (trimToMaxGraphemes s n) ≤ n := by
  unfold trimToMaxGraphemes
  by_cases h : (graphemes s).length ≤ n
  · rw [if_pos h]
    exact h
  · rw [if_neg h]
    unfold graphemes
    rw [← List.map_take, join_singletons, countGraphemes_mk]
    simp

theorem countGraphemes_fallbackText (input : GenerationInput) (reason : String) :
    countGraphemes (fallbackText input reason).text ≤ MAX_GRAPHEMES := by
  unfold fallbackText
  exact countGraphemes_trimToMaxGraphemes _ _

theorem validateOutput_ok_count {obj : Option JValue} {n : Nat} {out : GenerationResult}
    (h : validateOutput obj n = .ok out) : countGraphemes out.text ≤ MAX_GRAPHEMES := by
  simp only [validateOutput] at h
  repeat' split at h
  all_goals try cases h
  all_goals simp_all

/-- C5.  Every result of `generatePost` has a text of at most
`MAX_GRAPHEMES` (= 300) graphemes: an API payload is accepted only after
`validateOutput` checks the bound, and the fallback text is trimmed to
the bound. -/
theorem generatePost_text_grapheme_bound (parseJson : String → Option JValue) (env : GenEnv)
    (input : GenerationInput) (net : Nat → Except String NovaResponse) :
    countGraphemes (generatePost parseJson env input net).text ≤ MAX_GRAPHEMES := by
  unfold generatePost
  split
  · exact countGraphemes_fallbackText _ _
  · split
    · exact countGraphemes_fallbackText _ _
    · dsimp only
      split
      · rename_i out hV
        show countGraphemes out.text ≤ MAX_GRAPHEMES
        exact validateOutput_ok_count hV
      · split
        · exact countGraphemes_fallbackText _ _
        · split
          · rename_i out hV2
            show countGraphemes out.text ≤ MAX_GRAPHEMES
            exact validateOutput_ok_count hV2
          · exact countGraphemes_fallbackText _ _

/-- C4.  `generatePost` never propagates a failure: without an API key it
returns the deterministic fallback immediately, independently of the
network; a first call that throws (network error, non-OK HTTP status,
malformed response JSON — all the ways `callNova` throws) degrades to the
fallback; and so does a repair call that throws after a failed
validation.  Totality ("always returns a result") is the type of the
embedding itself. -/
theorem generatePost_degrades_to_fallback (parseJson : String → Option JValue) (env : GenEnv)
    (input : GenerationInput) (net : Nat → Except String NovaResponse) :
    (env.apiKey = none →
      generatePost parseJson env input net = fallbackText input "NOVA_API_KEY missing") ∧
    (env.apiKey = none → ∀ net', generatePost parseJson env input net =
      generatePost parseJson env input net') ∧
    (∀ k e, env.apiKey = some k → net 0 = Except.error e →
      generatePost parseJson env input net = fallbackText input e) ∧
    (∀ k first e, env.apiKey = some k → net 0 = Except.ok first →
      (∀ msg, validateOutput (collapseFalsy (parseJson first.text)) input.images.length =
        Except.error msg →
      net 1 = Except.error e →
      generatePost parseJson env input net = fallbackText input e)) := by
  refine ⟨?_, ?_, ?_, ?_⟩
  · intro hk
    unfold generatePost
    rw [hk]
  · intro hk net'
    unfold generatePost
    rw [hk]
  · intro k e hk h0
    unfold generatePost
    rw [hk, h0]
  · intro k first e hk h0 msg hV h1
    unfold generatePost
    rw [hk, h0]
    simp only [hV, h1]

/-- Witness for C4: with no API key configured, a network oracle that
always fails is never consulted and the deterministic fallback is
returned. -/
theorem generatePost_degrades_to_fallback_witness :
    generatePost (fun _ => none) ⟨none, none⟩ ⟨"voice", []⟩ (fun _ => Except.error "down") =
      fallbackText ⟨"voice", []⟩ "NOVA_API_KEY missing" :=
  (generatePost_degrades_to_fallback _ _ _ _).1 rfl

/-- Counterexample for C6 as stated: a successful generation reports
`source = "nova"`, not `"generated"` — the claimed value `"generated"`
never occurs in the code, whose source tag union is
`'nova' | 'fallback'`. -/
theorem generation_source_counterexample :
    ¬ ((generatePost
          (fun s => if s == "P" then some (JValue.jobj [("text", JValue.jstr "hi")]) else none)
          ⟨some "k", none⟩ ⟨"voice", []⟩
          (fun _ => Except.ok ⟨"P", some "m1", none, none, none, none, none⟩)).source =
        "generated" ∨
       (generatePost
          (fun s => if s == "P" then some (JValue.jobj [("text", JValue.jstr "hi")]) else none)
          ⟨some "k", none⟩ ⟨"voice", []⟩
          (fun _ => Except.ok ⟨"P", some "m1", none, none, none, none, none⟩)).source =
        "fallback") := by
  decide

theorem fallbackText_source (input : GenerationInput) (reason : String) :
    (fallbackText input reason).source = "fallback" := rfl

theorem fallbackText_model (input : GenerationInput) (reason : String) :
    (fallbackText input reason).model = "fallback" := rfl

theorem jsOrString_ne_empty {o : Option String} {d : String} (hd : d ≠ "") :
    jsOrString o d ≠ "" := by
  cases o with
  | none => exact hd
  | some s =>
    show (if (s == "") = true then d else s) ≠ ""
    by_cases hs : s == ""
    · rw [if_pos hs]
      exact hd
    · rw [if_neg hs]
      simpa using hs

/-- C6 (amended).  Every result of `generatePost` carries a `source` of
either `"nova"` (API-generated copy) or `"fallback"` (templated copy),
together with a non-empty model identifier, so AI-authored and templated
copy can be distinguished. -/
theorem generation_source_values (parseJson : String → Option JValue) (env : GenEnv)
    (input : GenerationInput) (net : Nat → Except String NovaResponse) :
    ((generatePost parseJson env input net).source = "nova" ∨
     (generatePost parseJson env input net).source = "fallback") ∧
    (generatePost parseJson env input net).model ≠ "" := by
  have hdm : defaultModel env ≠ "" := jsOrString_ne_empty (by decide)
  have hfb : ∀ reason, (fallbackText input reason).source = "nova" ∨
      (fallbackText input reason).source = "fallback" :=
    fun reason => Or.inr (fallbackText_source input reason)
  have hfm : ∀ reason, (fallbackText input reason).model ≠ "" := by
    intro reason
    rw [fallbackText_model]
    decide
  unfold generatePost
  split
  · exact ⟨hfb _, hfm _⟩
  · split
    · exact ⟨hfb _, hfm _⟩
    · dsimp only
      split
      · exact ⟨Or.inl rfl, jsOrString_ne_empty hdm⟩
      · split
        · exact ⟨hfb _, hfm _⟩
        · split
          · exact ⟨Or.inl rfl, jsOrString_ne_empty hdm⟩
          · exact ⟨hfb _, hfm _⟩


/-! ## C1 layer 1: character facts -/

theorem jsToLower_spec (c : Char) :
    jsToLower c = c ∨ (c, jsToLower c) ∈
      [('A','a'),('B','b'),('C','c'),('D','d'),('E','e'),('F','f'),('G','g'),('H','h'),
       ('I','i'),('J','j'),('K','k'),('L','l'),('M','m'),('N','n'),('O','o'),('P','p'),
       ('Q','q'),('R','r'),('S','s'),('T','t'),('U','u'),('V','v'),('W','w'),('X','x'),
       ('Y','y'),('Z','z')] := by
  unfold jsToLower
  split
  all_goals try (left; rfl)
  all_goals (right; decide)

theorem jsToLower_idem (c : Char) : jsToLower (jsToLower c) = jsToLower c := by
  rcases jsToLower_spec c with h | h
  · rw [h, h]
  · simp only [List.mem_cons, List.not_mem_nil, or_false] at h
    rcases h with h|h|h|h|h|h|h|h|h|h|h|h|h|h|h|h|h|h|h|h|h|h|h|h|h|h <;>
      (injection h with hc hl; rw [hl]; decide)

theorem isWs_jsToLower (c : Char) : isWs (jsToLower c) = isWs c := by
  rcases jsToLower_spec c with h | h
  · rw [h]
  · simp only [List.mem_cons, List.not_mem_nil, or_false] at h
    rcases h with h|h|h|h|h|h|h|h|h|h|h|h|h|h|h|h|h|h|h|h|h|h|h|h|h|h <;>
      (injection h with hc hl; rw [hl, hc]; decide)

/-! ## C1 layer 2: collapse/trim into words -/

theorem collapseWsAux_word {w : List Char} (r : List Char) (prev : Bool)
    (hne : w ≠ []) (hnw : ∀ c ∈ w, isWs c = false) :
    collapseWsAux prev (w ++ r) = w ++ collapseWsAux false r := by
  induction w generalizing prev with
  | nil => exact absurd rfl hne
  | cons c w ih =>
    have hc : isWs c = false := hnw c (List.mem_cons_self c w)
    have hw : ∀ x ∈ w, isWs x = false := fun x hx => hnw x (List.mem_cons_of_mem c hx)
    cases w with
    | nil => simp [collapseWsAux, hc]
    | cons d w' =>
      simp only [List.cons_append, collapseWsAux, hc, Bool.false_eq_true, if_neg,
        ite_false, List.cons.injEq, true_and]
      exact ih false (by simp) hw

theorem collapseWsAux_true_ws {d : Char} (ds : List Char) (hd : isWs d = true) :
    collapseWsAux true (d :: ds) = collapseWsAux true ds := by
  simp [collapseWsAux, hd]

theorem collapseWsAux_false_ws {d : Char} (ds : List Char) (hd : isWs d = true) :
    collapseWsAux false (d :: ds) = ' ' :: collapseWsAux true ds := by
  simp [collapseWsAux, hd]

theorem collapseWsAux_true_dropWhile (t : List Char) :
    collapseWsAux true t = collapseWsAux true (t.dropWhile isWs) := by
  induction t with
  | nil => rfl
  | cons c cs ih =>
    by_cases hc : isWs c = true
    · rw [collapseWsAux_true_ws cs hc, List.dropWhile_cons_of_pos hc]
      exact ih
    · rw [List.dropWhile_cons_of_neg (by simpa using hc)]

theorem dropWhile_head_false {p : Char → Bool} {l : List Char} {c : Char} {cs : List Char}
    (h : l.dropWhile p = c :: cs) : p c = false := by
  induction l with
  | nil => cases h
  | cons d ds ih =>
    by_cases hd : p d = true
    · rw [List.dropWhile_cons_of_pos hd] at h
      exact ih h
    · rw [List.dropWhile_cons_of_neg (by simpa using hd)] at h
      cases h
      simpa using hd

theorem wordsOf_nil : wordsOf [] = [] := by
  rw [wordsOf]

theorem wordsOf_cons_ws {d : Char} (ds : List Char) (hd : isWs d = true) :
    wordsOf (d :: ds) = wordsOf ds := by
  rw [wordsOf]
  simp [hd]

theorem wordsOf_cons_nonws {c : Char} (cs : List Char) (hc : isWs c = false) :
    wordsOf (c :: cs) = (c :: cs.takeWhile nonWs) :: wordsOf (cs.dropWhile nonWs) := by
  rw [wordsOf]
  simp [hc]

theorem wordsOf_words (t : List Char) :
    ∀ w ∈ wordsOf t, w ≠ [] ∧ ∀ c ∈ w, isWs c = false := by
  induction t using wordsOf.induct with
  | case1 => simp [wordsOf_nil]
  | case2 c cs h ih => rw [wordsOf_cons_ws cs (by simpa using h)]; exact ih
  | case3 c cs h ih =>
    have hc : isWs c = false := by simpa using h
    rw [wordsOf_cons_nonws cs hc]
    intro w hw
    rcases List.mem_cons.mp hw with rfl | hmem
    · refine ⟨by simp, ?_⟩
      intro x hx
      rcases List.mem_cons.mp hx with rfl | hx'
      · exact hc
      · have := List.mem_takeWhile_imp hx'
        simpa [nonWs] using this
    · exact ih w hmem


theorem joinSp_cons {ws : List (List Char)} (w : List Char) (h : ws ≠ []) :
    joinSp (w :: ws) = w ++ ' ' :: joinSp ws := by
  cases ws with
  | nil => exact absurd rfl h
  | cons w2 ws2 => rfl

theorem joinSp_ne_nil {ws : List (List Char)} (hne : ws ≠ [])
    (hw : ∀ w ∈ ws, w ≠ [] ∧ ∀ c ∈ w, isWs c = false) : joinSp ws ≠ [] := by
  cases ws with
  | nil => exact absurd rfl hne
  | cons w ws2 =>
    have hwne : w ≠ [] := (hw w (List.mem_cons_self w ws2)).1
    cases ws2 with
    | nil =>
      show joinSp [w] ≠ []
      simpa [joinSp] using hwne
    | cons w2 ws3 =>
      rw [joinSp_cons w (by simp)]
      simp [hwne]

theorem word_chars {c : Char} {cs : List Char} (hc : isWs c = false) :
    ∀ x ∈ c :: cs.takeWhile nonWs, isWs x = false := by
  intro x hx
  rcases List.mem_cons.mp hx with rfl | hx'
  · exact hc
  · simpa [nonWs] using List.mem_takeWhile_imp hx'

theorem collapse_true_words (t : List Char) :
    collapseWsAux true t = joinSp (wordsOf t) ∨
      (wordsOf t ≠ [] ∧ collapseWsAux true t = joinSp (wordsOf t) ++ [' ']) := by
  induction t using wordsOf.induct with
  | case1 =>
    left
    rw [wordsOf_nil]
    rfl
  | case2 c cs h ih =>
    rw [collapseWsAux_true_ws cs h, wordsOf_cons_ws cs h]
    exact ih
  | case3 c cs h ih =>
    have hc : isWs c = false := by simpa using h
    rw [wordsOf_cons_nonws cs hc]
    have hsplit : c :: cs = (c :: cs.takeWhile nonWs) ++ cs.dropWhile nonWs := by
      simp [List.takeWhile_append_dropWhile]
    have hcol : collapseWsAux true (c :: cs) =
        (c :: cs.takeWhile nonWs) ++ collapseWsAux false (cs.dropWhile nonWs) := by
      conv_lhs => rw [hsplit]
      exact collapseWsAux_word _ true (by simp) (word_chars hc)
    cases hrest : cs.dropWhile nonWs with
    | nil =>
      left
      rw [hcol, hrest, wordsOf_nil]
      show (c :: cs.takeWhile nonWs) ++ collapseWsAux false [] =
        joinSp [c :: cs.takeWhile nonWs]
      simp [collapseWsAux, joinSp]
    | cons d ds =>
      rw [hrest] at ih hcol
      have hd : isWs d = true := by
        have := dropWhile_head_false hrest
        simpa [nonWs] using this
      have hfalse : collapseWsAux false (d :: ds) = ' ' :: collapseWsAux true (d :: ds) := by
        rw [collapseWsAux_false_ws ds hd, collapseWsAux_true_ws ds hd]
      rw [hcol, hfalse]
      rcases ih with hL | ⟨hne, hR⟩
      · by_cases hwr : wordsOf (d :: ds) = []
        · right
          refine ⟨by simp, ?_⟩
          rw [hL, hwr]
          show (c :: cs.takeWhile nonWs) ++ ' ' :: joinSp [] =
            joinSp [c :: cs.takeWhile nonWs] ++ [' ']
          simp [joinSp]
        · left
          rw [hL, joinSp_cons _ hwr]
      · right
        refine ⟨by simp, ?_⟩
        rw [hR, joinSp_cons _ hne]
        simp

theorem collapse_true_head (t : List Char) :
    collapseWsAux true t = [] ∨
      ∃ c x, collapseWsAux true t = c :: x ∧ isWs c = false := by
  induction t with
  | nil => left; rfl
  | cons c cs ih =>
    by_cases hc : isWs c = true
    · rw [collapseWsAux_true_ws cs hc]
      exact ih
    · right
      refine ⟨c, collapseWsAux false cs, ?_, by simpa using hc⟩
      simp [collapseWsAux, hc]

theorem ltrimWs_of_head_nonws {t : List Char}
    (h : t = [] ∨ ∃ c x, t = c :: x ∧ isWs c = false) : ltrimWs t = t := by
  rcases h with rfl | ⟨c, x, rfl, hc⟩
  · rfl
  · unfold ltrimWs
    rw [List.dropWhile_cons_of_neg (by simp [hc])]

theorem K0 (t : List Char) :
    collapseWs t = collapseWsAux true t ∨ collapseWs t = ' ' :: collapseWsAux true t := by
  cases t with
  | nil => left; rfl
  | cons c cs =>
    by_cases hc : isWs c = true
    · right
      rw [collapseWsAux_true_ws cs hc]
      exact collapseWsAux_false_ws cs hc
    · left
      have hc' : isWs c = false := by simpa using hc
      show collapseWsAux false (c :: cs) = collapseWsAux true (c :: cs)
      simp [collapseWsAux, hc']

theorem ltrim_collapse (t : List Char) : ltrimWs (collapseWs t) = collapseWsAux true t := by
  rcases K0 t with h | h
  · rw [h]
    exact ltrimWs_of_head_nonws (collapse_true_head t)
  · rw [h]
    show (collapseWsAux true t).dropWhile isWs = collapseWsAux true t
    exact ltrimWs_of_head_nonws (collapse_true_head t)

theorem rtrimWs_append_space (x : List Char) : rtrimWs (x ++ [' ']) = rtrimWs x := by
  unfold rtrimWs
  rw [List.reverse_append]
  simp [List.dropWhile_cons_of_pos (by decide : isWs ' ' = true)]

theorem rtrimWs_of_last_nonws {x : List Char}
    (h : ∀ c, x.reverse.head? = some c → isWs c = false) : rtrimWs x = x := by
  unfold rtrimWs
  cases hx : x.reverse with
  | nil =>
    have : x = [] := by simpa using congrArg List.reverse hx
    simp [this]
  | cons c y =>
    have hc : isWs c = false := h c (by rw [hx]; rfl)
    rw [List.dropWhile_cons_of_neg (by simp [hc])]
    rw [← hx, List.reverse_reverse]

theorem joinSp_last_nonws {ws : List (List Char)}
    (hw : ∀ w ∈ ws, w ≠ [] ∧ ∀ c ∈ w, isWs c = false) :
    ∀ c, (joinSp ws).reverse.head? = some c → isWs c = false := by
  induction ws with
  | nil => intro c hc; cases hc
  | cons w ws2 ih =>
    intro c hc
    have hwne : w ≠ [] := (hw w (List.mem_cons_self w ws2)).1
    have hwch : ∀ x ∈ w, isWs x = false := (hw w (List.mem_cons_self w ws2)).2
    cases ws2 with
    | nil =>
      have : joinSp [w] = w := rfl
      rw [this] at hc
      have : c ∈ w := by
        have := List.mem_of_mem_head? hc
        simpa [List.mem_reverse] using this
      exact hwch c this
    | cons w2 ws3 =>
      rw [joinSp_cons w (by simp), List.reverse_append] at hc
      have hJne : joinSp (w2 :: ws3) ≠ [] :=
        joinSp_ne_nil (by simp) (fun v hv => hw v (List.mem_cons_of_mem w hv))
      have hrevne : (' ' :: joinSp (w2 :: ws3)).reverse ≠ [] := by simp
      rw [List.head?_append] at hc
      have hrev : (' ' :: joinSp (w2 :: ws3)).reverse =
          (joinSp (w2 :: ws3)).reverse ++ [' '] := by simp
      rw [hrev, List.head?_append] at hc
      cases hJr : (joinSp (w2 :: ws3)).reverse with
      | nil => exact absurd (by simpa using congrArg List.reverse hJr) hJne
      | cons d y =>
        rw [hJr] at hc
        simp only [List.head?_cons, Option.or_some, Option.some.injEq] at hc
        have hd : isWs d = false :=
          ih (fun v hv => hw v (List.mem_cons_of_mem w hv)) d (by rw [hJr]; rfl)
        exact hc ▸ hd

theorem W1 (t : List Char) : trimWs (collapseWs t) = joinSp (wordsOf t) := by
  unfold trimWs
  rw [ltrim_collapse]
  rcases collapse_true_words t with h | ⟨hne, h⟩
  · rw [h]
    exact rtrimWs_of_last_nonws (joinSp_last_nonws (wordsOf_words t))
  · rw [h, rtrimWs_append_space]
    exact rtrimWs_of_last_nonws (joinSp_last_nonws (wordsOf_words t))

theorem takeWhile_append_all {p : Char → Bool} {a : List Char} (b : List Char)
    (h : ∀ x ∈ a, p x = true) : (a ++ b).takeWhile p = a ++ b.takeWhile p := by
  induction a with
  | nil => rfl
  | cons c a ih =>
    have hc : p c = true := h c (List.mem_cons_self c a)
    simp only [List.cons_append, List.takeWhile_cons, hc, if_true, ite_true]
    rw [ih (fun x hx => h x (List.mem_cons_of_mem c hx))]

theorem dropWhile_append_all {p : Char → Bool} {a : List Char} (b : List Char)
    (h : ∀ x ∈ a, p x = true) : (a ++ b).dropWhile p = b.dropWhile p := by
  induction a with
  | nil => rfl
  | cons c a ih =>
    have hc : p c = true := h c (List.mem_cons_self c a)
    simp only [List.cons_append, List.dropWhile_cons, hc, if_true, ite_true]
    exact ih (fun x hx => h x (List.mem_cons_of_mem c hx))

theorem wordsOf_joinSp {ws : List (List Char)}
    (hw : ∀ w ∈ ws, w ≠ [] ∧ ∀ c ∈ w, isWs c = false) : wordsOf (joinSp ws) = ws := by
  induction ws with
  | nil => exact wordsOf_nil
  | cons w ws2 ih =>
    obtain ⟨hwne, hwch⟩ := hw w (List.mem_cons_self w ws2)
    obtain ⟨c, w', rfl⟩ : ∃ c w', w = c :: w' := by
      cases w with
      | nil => exact absurd rfl hwne
      | cons c w' => exact ⟨c, w', rfl⟩
    have hc : isWs c = false := hwch c (List.mem_cons_self c w')
    have hw' : ∀ x ∈ w', nonWs x = true := by
      intro x hx
      simp [nonWs, hwch x (List.mem_cons_of_mem c hx)]
    cases ws2 with
    | nil =>
      show wordsOf (c :: w') = [c :: w']
      rw [wordsOf_cons_nonws w' hc]
      rw [List.takeWhile_eq_self_iff.mpr hw', List.dropWhile_eq_nil_iff.mpr hw', wordsOf_nil]
    | cons w2 ws3 =>
      rw [joinSp_cons _ (by simp)]
      show wordsOf (c :: (w' ++ ' ' :: joinSp (w2 :: ws3))) = (c :: w') :: w2 :: ws3
      rw [wordsOf_cons_nonws _ hc]
      rw [takeWhile_append_all _ hw', dropWhile_append_all _ hw']
      have hsp : nonWs ' ' = false := by decide
      rw [List.takeWhile_cons, List.dropWhile_cons]
      simp only [hsp, Bool.false_eq_true, if_false, ite_false, List.append_nil]
      rw [wordsOf_cons_ws _ (by decide)]
      rw [ih (fun v hv => hw v (List.mem_cons_of_mem _ hv))]

theorem W2 {ws : List (List Char)}
    (hw : ∀ w ∈ ws, w ≠ [] ∧ ∀ c ∈ w, isWs c = false) :
    trimWs (collapseWs (joinSp ws)) = joinSp ws := by
  rw [W1, wordsOf_joinSp hw]

theorem map_joinSp (f : Char → Char) (hf : f ' ' = ' ') (ws : List (List Char)) :
    (joinSp ws).map f = joinSp (ws.map (List.map f)) := by
  induction ws with
  | nil => rfl
  | cons w ws2 ih =>
    cases ws2 with
    | nil => rfl
    | cons w2 ws3 =>
      have h1 : joinSp (w :: w2 :: ws3) = w ++ ' ' :: joinSp (w2 :: ws3) :=
        joinSp_cons _ (by simp)
      have h2 : joinSp (List.map (List.map f) (w :: w2 :: ws3)) =
          List.map f w ++ ' ' :: joinSp (List.map (List.map f) (w2 :: ws3)) := by
        simp only [List.map_cons]
        exact joinSp_cons _ (by simp)
      rw [h1, h2, List.map_append, List.map_cons, hf, ih]

theorem words_map_jsToLower {ws : List (List Char)}
    (hw : ∀ w ∈ ws, w ≠ [] ∧ ∀ c ∈ w, isWs c = false) :
    ∀ w ∈ ws.map (List.map jsToLower), w ≠ [] ∧ ∀ c ∈ w, isWs c = false := by
  intro w hw'
  obtain ⟨v, hv, rfl⟩ := List.mem_map.mp hw'
  obtain ⟨hvne, hvch⟩ := hw v hv
  refine ⟨by simpa using hvne, ?_⟩
  intro c hc
  obtain ⟨d, hd, rfl⟩ := List.mem_map.mp hc
  rw [isWs_jsToLower]
  exact hvch d hd

/-! ## C1 layer 3: evaluating the well-founded recursions -/

theorem replaceUrls_nil : replaceUrls [] = [] := by
  rw [replaceUrls]

theorem replaceUrls_cons_pos {c : Char} {cs : List Char} (h : headMatch (c :: cs) = true) :
    replaceUrls (c :: cs) =
      stripTracking ((c :: cs).takeWhile nonWs) ++ replaceUrls (cs.dropWhile nonWs) := by
  rw [replaceUrls, if_pos h]

theorem replaceUrls_cons_neg {c : Char} {cs : List Char} (h : ¬ headMatch (c :: cs) = true) :
    replaceUrls (c :: cs) = c :: replaceUrls cs := by
  rw [replaceUrls, if_neg h]

theorem replaceUrls_eq_fuel (n : Nat) :
    ∀ l : List Char, l.length ≤ n → replaceUrls l = replaceUrlsF n l := by
  induction n with
  | zero =>
    intro l hl
    have hnil : l = [] := List.eq_nil_of_length_eq_zero (Nat.le_zero.mp hl)
    subst hnil
    rw [replaceUrls_nil]
    rfl
  | succ n ih =>
    intro l hl
    cases l with
    | nil => rw [replaceUrls_nil]; rfl
    | cons c cs =>
      simp only [List.length_cons, Nat.succ_le_succ_iff] at hl
      by_cases h : headMatch (c :: cs) = true
      · rw [replaceUrls_cons_pos h, replaceUrlsF, if_pos h]
        rw [ih _ (le_trans (List.dropWhile_suffix _).length_le hl)]
      · rw [replaceUrls_cons_neg h, replaceUrlsF, if_neg h]
        rw [ih cs hl]

theorem replaceUrls_eval (l : List Char) : replaceUrls l = replaceUrlsF l.length l :=
  replaceUrls_eq_fuel l.length l (Nat.le_refl _)

theorem wordsOf_eq_fuel (n : Nat) :
    ∀ l : List Char, l.length ≤ n → wordsOf l = wordsOfF n l := by
  induction n with
  | zero =>
    intro l hl
    have hnil : l = [] := List.eq_nil_of_length_eq_zero (Nat.le_zero.mp hl)
    subst hnil
    rw [wordsOf_nil]
    rfl
  | succ n ih =>
    intro l hl
    cases l with
    | nil => rw [wordsOf_nil]; rfl
    | cons c cs =>
      simp only [List.length_cons, Nat.succ_le_succ_iff] at hl
      by_cases h : isWs c = true
      · rw [wordsOf_cons_ws cs h, wordsOfF, if_pos h, ih cs hl]
      · have h' : isWs c = false := by simpa using h
        rw [wordsOf_cons_nonws cs h', wordsOfF, if_neg h]
        rw [ih _ (le_trans (List.dropWhile_suffix _).length_le hl)]

theorem wordsOf_eval (l : List Char) : wordsOf l = wordsOfF l.length l :=
  wordsOf_eq_fuel l.length l (Nat.le_refl _)

/-! ## C1: hash stability -/

/-- **C1, counterexample.**  The spec's identity
`hashText (normalizeText t) = hashText t` is false of the program:
`normalizeText` lowercases before the URL pass, but the WHATWG URL
serialiser percent-encodes raw path characters with uppercase hex and
preserves existing `%xy` sequences verbatim, so `"https://a.b/<"`
normalizes to `"https://a.b/%3C"` while the latter re-normalizes to
`"https://a.b/%3c"`: `normalizeText` is not idempotent, and the hashes
of a text and of its normalization differ. -/
theorem hashText_normalize_unstable :
    normalizeText (normalizeText "https://a.b/<") ≠ normalizeText "https://a.b/<" ∧
    hashText (normalizeText "https://a.b/<") ≠ hashText "https://a.b/<" := by
  have e1 : normalizeText "https://a.b/<" = "https://a.b/%3C" := by
    unfold normalizeText
    rw [replaceUrls_eval]
    decide
  have e2 : normalizeText "https://a.b/%3C" = "https://a.b/%3c" := by
    unfold normalizeText
    rw [replaceUrls_eval]
    decide
  refine ⟨?_, ?_⟩
  · rw [e1, e2]
    decide
  · rw [e1]
    unfold hashText
    rw [e2, e1]
    decide

/-- **C1 (amended).**  `hashText` is stable under the casing and
whitespace changes `normalizeText` removes: any two texts whose
lowercased word sequences agree hash identically — in particular
`hashText "Hello World" = hashText "hello   world"` — and stripping the
fixed tracking query parameters preserves the hash (concrete instance).
The spec's further identity `hashText (normalizeText t) = hashText t`
is refuted by `hashText_normalize_unstable`. -/
theorem hashText_stability :
    (∀ t1 t2 : String,
        (wordsOf t1.data).map (List.map jsToLower) =
          (wordsOf t2.data).map (List.map jsToLower) →
        hashText t1 = hashText t2) ∧
    hashText "Hello World" = hashText "hello   world" ∧
    hashText "see https://a.b/?utm_source=news&q=1 ok" =
      hashText "see https://a.b/?q=1 ok" := by
  have key : ∀ t : String, (trimWs (collapseWs t.data)).map jsToLower =
      joinSp ((wordsOf t.data).map (List.map jsToLower)) := by
    intro t
    rw [W1]
    exact map_joinSp jsToLower (by decide) (wordsOf t.data)
  have gen : ∀ t1 t2 : String,
      (wordsOf t1.data).map (List.map jsToLower) =
        (wordsOf t2.data).map (List.map jsToLower) →
      hashText t1 = hashText t2 := by
    intro t1 t2 h
    unfold hashText normalizeText
    rw [key t1, key t2, h]
  refine ⟨gen, gen _ _ ?_, ?_⟩
  · rw [wordsOf_eval, wordsOf_eval]
    decide
  · have n1 : normalizeText "see https://a.b/?utm_source=news&q=1 ok" =
        "see https://a.b/?q=1 ok" := by
      unfold normalizeText
      rw [replaceUrls_eval]
      decide
    have n2 : normalizeText "see https://a.b/?q=1 ok" = "see https://a.b/?q=1 ok" := by
      unfold normalizeText
      rw [replaceUrls_eval]
      decide
    unfold hashText
    rw [n1, n2]

/-- Witness: the amended stability theorem applied at a concrete pair
differing only in casing and whitespace. -/
theorem hashText_stability_witness :
    hashText "Check  This" = hashText "check this" :=
  hashText_stability.1 _ _ (by rw [wordsOf_eval, wordsOf_eval]; decide)

end BskyPoster
